import Mathlib

/-!
Verification of the condition-variable implementation in
`third_party/ulib/musl/pthread/pthread_cond_timedwait.c`.

The development shallowly embeds the data model and the operations of the
source file: the waiter node and its three-valued `state` field, the atomic
compare-and-exchange that arbitrates the timeout/signal race, the intrusive
doubly-linked waiter list owned by the condition variable (`_c_head` /
`_c_tail`), the walk-and-split performed by `__private_cond_signal`, the
error-code plumbing of `pthread_cond_timedwait`, and the ref-count handshake
between a signaller and concurrently timing-out waiters.
-/

namespace CondVar

/-- The waiter state enumeration (`enum { WAITING, SIGNALED, LEAVING }`). -/
inductive WState where
  | WAITING
  | SIGNALED
  | LEAVING
deriving DecidableEq, Repr

/-- Atomic compare-and-swap on a `WState` cell, returning the new cell value
and the observed old value (musl `a_cas` returns the old value). -/
def a_cas (cell expect newv : WState) : WState × WState :=
  if cell = expect then (newv, cell) else (cell, cell)

/-- Which of the two racing threads performs its compare-and-exchange first:
the timing-out waiter (`a_cas(&node.state, WAITING, LEAVING)`, line 111) or
the signaller (`a_cas(&p->state, WAITING, SIGNALED)`, line 222).  Each racer
performs a single atomic instruction, so an interleaving of the two racers is
exactly an order of the two instructions. -/
inductive RaceOrder where
  | waiterFirst
  | signalerFirst
deriving DecidableEq, Repr

/-- Run the two racing compare-and-exchanges on one node whose state starts at
`WAITING`, in the given order.  Returns the final state of the node, the old
value observed by the waiter's CAS, and the old value observed by the
signaller's CAS. -/
def raceRun (ord : RaceOrder) : WState × WState × WState :=
  match ord with
  | .waiterFirst =>
      let r1 := a_cas .WAITING .WAITING .LEAVING
      let r2 := a_cas r1.1 .WAITING .SIGNALED
      (r2.1, r1.2, r2.2)
  | .signalerFirst =>
      let r1 := a_cas .WAITING .WAITING .SIGNALED
      let r2 := a_cas r1.1 .WAITING .LEAVING
      (r2.1, r2.2, r1.2)

/-- The waiter takes the timeout outcome exactly when its CAS observed
`WAITING` (line 113: `oldstate == WAITING`). -/
def timeoutOutcome (ord : RaceOrder) : Bool :=
  (raceRun ord).2.1 = .WAITING

/-- The signaller counts the node as signalled exactly when its CAS observed
`WAITING` (line 222: `a_cas(...) != WAITING` is the failure branch). -/
def signalConsumedOutcome (ord : RaceOrder) : Bool :=
  (raceRun ord).2.2 = .WAITING

end CondVar

namespace CondVar

/-! ## Error-code plumbing of `pthread_cond_timedwait`

Errno values as used by the musl/magenta tree. -/

def EPERM : Int := 1
def EINVAL : Int := 22
def ETIMEDOUT : Int := 110
def ECANCELED : Int := 125

/-- The mutex fields inspected by the entry validation: the type word and the
owner tid stored in the low 31 bits of the lock word. -/
structure MutexView where
  m_type : Nat
  m_lock_owner : Nat
deriving DecidableEq, Repr

/-- Result of the entry validation of `pthread_cond_timedwait` (lines 69-73):
either an immediate error return (before any condvar, node, or mutex state is
touched) or permission to proceed to the waiting protocol. -/
inductive EntryResult where
  | earlyErr (e : Int)
  | proceed
deriving DecidableEq, Repr

/-- Lines 69-73 of `pthread_cond_timedwait`:

    if ((m->_m_type & 15) && (m->_m_lock & INT_MAX) != __thread_get_tid())
        return EPERM;
    if (ts && ts->tv_nsec >= 1000000000UL)
        return EINVAL;

`ts` is `some nsec` when a deadline was supplied; `tv_nsec` is a signed value
compared against `1000000000UL`, so a negative value is converted to a huge
unsigned value and also fails the check — out of range means `nsec < 0` or
`nsec ≥ 10^9`. -/
def twEntry (m : MutexView) (tid : Nat) (ts : Option Int) : EntryResult :=
  if m.m_type % 16 ≠ 0 ∧ m.m_lock_owner ≠ tid then .earlyErr EPERM
  else match ts with
    | some nsec => if nsec < 0 ∨ 1000000000 ≤ nsec then .earlyErr EINVAL else .proceed
    | none => .proceed

/-- The return-value computation on the path after the blocking loop
(lines 111, 165-208): `oldstate` is the waiter's CAS result, `e0` the error
recorded by the blocking loop (`0`, `ETIMEDOUT`, or `ECANCELED`), `lockErr`
the result of `pthread_mutex_lock(m)`.

    if ((tmp = pthread_mutex_lock(m))) e = tmp;
    if (oldstate == WAITING) goto done;
    ...
    if (e == ECANCELED) e = 0;
    done: ...
    return e;
-/
def twOutcome (oldstate : WState) (e0 lockErr : Int) : Int :=
  let e := if lockErr ≠ 0 then lockErr else e0
  if oldstate = .WAITING then e
  else if e = ECANCELED then 0 else e

end CondVar

namespace CondVar

/-! ## The waiter heap and the condition variable's intrusive list

`struct waiter` (lines 29-33): `prev`/`next` links, the `state` word, the
`barrier` word (a futex address, initialised to the sentinel 2), and the
`notify` back-pointer.  The `notify` pointer, when set, always points at the
signaller's shared `ref` counter, so it is modelled as a flag. -/
structure Waiter where
  prev : Option Nat
  next : Option Nat
  state : WState
  barrier : Int
  notify : Bool
deriving DecidableEq, Repr

/-- Waiter nodes live on the stacks of the waiting threads; the model
addresses them by a numeric id. -/
def Heap : Type := Nat → Waiter

/-- Pointwise store to one node. -/
def update (h : Heap) (i : Nat) (w : Waiter) : Heap :=
  fun j => if j = i then w else h j

/-- The condition variable's list anchors `_c_head` and `_c_tail`.  The
`_c_lock` word is not represented: every list operation in the source runs
with `_c_lock` held, so the operations are modelled as atomic heap
transformers. -/
structure CV where
  head : Option Nat
  tail : Option Nat
deriving DecidableEq, Repr

/-- A freshly initialised node (line 65 `struct waiter node = {};` plus lines
79-81): zeroed links and `notify`, `barrier = 2`, `state = WAITING`. -/
def initNode : Waiter :=
  { prev := none, next := none, state := .WAITING, barrier := 2, notify := false }

/-- Lines 82-89: insert the caller's node at `_c_head` (the head is the
youngest end; `_c_tail` holds the most senior waiter):

    node.next = c->_c_head;
    c->_c_head = &node;
    if (!c->_c_tail) c->_c_tail = &node;
    else node.next->prev = &node;

If `tail` is set but `head` is empty the source would dereference null; that
state is unreachable under the list invariant and the model leaves the heap
unchanged there. -/
def insertNode (h : Heap) (c : CV) (i : Nat) : Heap × CV :=
  let h1 := update h i { initNode with next := c.head }
  match c.tail with
  | none => (h1, { head := some i, tail := some i })
  | some _ =>
      match c.head with
      | some oh => (update h1 oh { h1 oh with prev := some i }, { c with head := some i })
      | none => (h1, { c with head := some i })

/-- Lines 130-137: the timed-out waiter splices its own node out of the list
(under `_c_lock`):

    if (c->_c_head == &node) c->_c_head = node.next;
    else if (node.prev) node.prev->next = node.next;
    if (c->_c_tail == &node) c->_c_tail = node.prev;
    else if (node.next) node.next->prev = node.prev;
-/
def removeNode (h : Heap) (c : CV) (i : Nat) : Heap × CV :=
  let nd := h i
  let hc1 : Heap × CV :=
    if c.head = some i then (h, { c with head := nd.next })
    else match nd.prev with
      | some p => (update h p { h p with next := nd.next }, c)
      | none => (h, c)
  let h1 := hc1.1
  let c1 := hc1.2
  if c1.tail = some i then (h1, { c1 with tail := nd.prev })
  else match nd.next with
    | some nx => (update h1 nx { h1 nx with prev := nd.prev }, c1)
    | none => (h1, c1)

/-- Result of the signal walk loop: the heap after the CAS and `notify`
stores, the residual count `n`, the stopping point `p`, the first
successfully signalled node, and the `ref` counter. -/
structure WalkOut where
  h : Heap
  n : Int
  p : Option Nat
  first : Option Nat
  ref : Nat

/-- Lines 221-235 of `__private_cond_signal`:

    for (p = c->_c_tail; n && p; p = p->prev) {
        if (a_cas(&p->state, WAITING, SIGNALED) != WAITING) {
            ref++;
            p->notify = &ref;
        } else {
            n--;
            if (!first) first = p;
        }
    }

The walk follows `prev` from the tail; `fuel` bounds the recursion and is
instantiated above the list length in every theorem. -/
def signalWalk (h : Heap) (n : Int) (p : Option Nat) (first : Option Nat)
    (ref : Nat) : Nat → WalkOut
  | 0 => ⟨h, n, p, first, ref⟩
  | fuel + 1 =>
    match p with
    | none => ⟨h, n, none, first, ref⟩
    | some i =>
        if n = 0 then ⟨h, n, some i, first, ref⟩
        else if (h i).state = .WAITING then
          let h1 := update h i { h i with state := .SIGNALED }
          signalWalk h1 (n - 1) ((h1 i).prev)
            (match first with | none => some i | some f => some f) ref fuel
        else
          let h1 := update h i { h i with notify := true }
          signalWalk h1 n ((h1 i).prev) first (ref + 1) fuel

/-- Lines 236-244 of `__private_cond_signal`: split the list at the stopping
point, leaving any remainder on the condition variable:

    if (p) {
        if (p->next) p->next->prev = 0;
        p->next = 0;
    } else {
        c->_c_head = 0;
    }
    c->_c_tail = p;
-/
def signalSplit (h : Heap) (c : CV) (p : Option Nat) : Heap × CV :=
  match p with
  | some i =>
      let h1 := match (h i).next with
        | some nx => update h nx { h nx with prev := none }
        | none => h
      (update h1 i { h1 i with next := none }, { c with tail := some i })
  | none => (h, { head := none, tail := none })

/-- The locked phase of `__private_cond_signal(c, n)` (lines 220-245): walk
and split.  Returns the heap, the condition variable, `first`, and `ref`.
The post-lock phase (waiting for `ref` to drain, then releasing
`first->barrier`) is modelled by the handshake system below. -/
def private_cond_signal (h : Heap) (c : CV) (n : Int) (fuel : Nat) :
    Heap × CV × Option Nat × Nat :=
  let w := signalWalk h n c.tail none 0 fuel
  let hc := signalSplit w.h c w.p
  (hc.1, hc.2, w.first, w.ref)

/-! ## Representation predicate for the intrusive doubly-linked list -/

/-- First element of `L`, or the default `d` when `L` is empty. -/
def headOr (L : List Nat) (d : Option Nat) : Option Nat :=
  match L with
  | [] => d
  | i :: _ => some i

/-- Last element of `L`, or the default `d` when `L` is empty. -/
def lastOr (L : List Nat) (d : Option Nat) : Option Nat :=
  match L.getLast? with
  | some x => some x
  | none => d

/-- Segment predicate `seg h pr L nx`: the nodes of `L` form a doubly-linked segment whose first
node's `prev` is `pr`, consecutive nodes point at each other, and whose last
node's `next` is `nx`. -/
def seg (h : Heap) : Option Nat → List Nat → Option Nat → Prop
  | _, [], _ => True
  | pr, i :: rest, nx =>
      (h i).prev = pr ∧ (h i).next = headOr rest nx ∧ seg h (some i) rest nx

/-- Representation predicate `Represents h c L`: the condition variable's anchors and the heap links
represent exactly the list `L`, written head-first (so `L.head?` is the
youngest waiter and `L.getLast?` the most senior). -/
def Represents (h : Heap) (c : CV) (L : List Nat) : Prop :=
  L.Nodup ∧ c.head = L.head? ∧ c.tail = L.getLast? ∧ seg h none L none

/-- Follow `prev` pointers starting from `p`; `prevChain h p W` holds when the
walk visits exactly the nodes of `W` in order and then reaches null. -/
def prevChain (h : Heap) : Option Nat → List Nat → Prop
  | p, [] => p = none
  | p, i :: W => p = some i ∧ prevChain h ((h i).prev) W

/-- Follow `next` pointers from `p` for at most `fuel` steps; returns the
visited nodes if the walk reaches null within the fuel, and `none` otherwise
(in particular on any cycle longer than the fuel). -/
def walkNext (h : Heap) : Option Nat → Nat → Option (List Nat)
  | none, _ => some []
  | some _, 0 => none
  | some i, fuel + 1 => (walkNext h ((h i).next) fuel).map (fun L => i :: L)

/-! ## Specification-level description of the signal walk -/

/-- Outcome of the walk described over the walk-order list: `k` nodes were
visited, `sig` of them were CAS'd `WAITING → SIGNALED` (in walk order), `lv`
were found already out of `WAITING` (their `notify` is set), `nLeft` is the
residual count, and `stop` is the first unvisited node. -/
structure WalkRes where
  k : Nat
  sig : List Nat
  lv : List Nat
  nLeft : Int
  stop : Option Nat
deriving DecidableEq, Repr

/-- The signal walk described as a pure function of the walk-order node list
`W` (tail first, i.e. most senior first) and the pre-walk states `st`. -/
def walkSpec (st : Nat → WState) (n : Int) : List Nat → WalkRes
  | [] => ⟨0, [], [], n, none⟩
  | i :: W =>
      if n = 0 then ⟨0, [], [], n, some i⟩
      else if st i = .WAITING then
        let r := walkSpec st (n - 1) W
        ⟨r.k + 1, i :: r.sig, r.lv, r.nLeft, r.stop⟩
      else
        let r := walkSpec st n W
        ⟨r.k + 1, r.sig, i :: r.lv, r.nLeft, r.stop⟩

/-- Pointwise description of the heap after the walk: nodes CAS'd to
`SIGNALED` changed only their `state`, nodes that had raced into `LEAVING`
changed only their `notify`, all other nodes are untouched. -/
def updWalk (h : Heap) (sig lv : List Nat) : Heap :=
  fun j =>
    if j ∈ sig then { h j with state := .SIGNALED }
    else if j ∈ lv then { h j with notify := true }
    else h j

/-- The `some`-biased choice, modelling `if (!first) first = p;`. -/
def optOr (a b : Option Nat) : Option Nat :=
  match a with
  | some x => some x
  | none => b

/-- The list of attached waiter ids after the signal's locked phase: the walk
visited `k` nodes from the tail, so the head-side prefix of length
`L.length - k` remains attached. -/
def signalRemainder (h : Heap) (n : Int) (L : List Nat) : List Nat :=
  L.take (L.length - (walkSpec (fun j => (h j).state) n L.reverse).k)

/-- The states of the waiter heap and condition variable reachable by any
sequence of insertions (timed-wait step 3), timeout self-removals, and
signal/broadcast walk-and-splits, starting from an empty condition variable,
together with the list of attached waiters. -/
inductive Attached : Heap → CV → List Nat → Prop where
  | empty (h : Heap) : Attached h ⟨none, none⟩ []
  | insert {h c L} (i : Nat) (hA : Attached h c L) (hi : i ∉ L) :
      Attached (insertNode h c i).1 (insertNode h c i).2 (i :: L)
  | remove {h c L} (i : Nat) (hA : Attached h c L) (hi : i ∈ L) :
      Attached (removeNode h c i).1 (removeNode h c i).2 (L.erase i)
  | signal {h c L} (n : Int) (fuel : Nat) (hA : Attached h c L)
      (hfuel : L.length ≤ fuel) :
      Attached (private_cond_signal h c n fuel).1
        (private_cond_signal h c n fuel).2.1 (signalRemainder h n L)

/-! ## Entry validation combined with the first mutation -/

/-- The observable prefix of a `pthread_cond_timedwait` call: run the entry
validation of lines 69-73; on an early error return that error with the
condition variable and heap untouched, otherwise perform the insertion of
lines 82-89 (the call's first mutation of shared state). -/
def twCall (m : MutexView) (tid : Nat) (ts : Option Int) (h : Heap) (c : CV)
    (i : Nat) : Option Int × Heap × CV :=
  match twEntry m tid ts with
  | .earlyErr e => (some e, h, c)
  | .proceed => (none, (insertNode h c i).1, (insertNode h c i).2)

/-! ## Wake-side effects of the two exit paths of `pthread_cond_timedwait` -/

/-- An effect on another thread's barrier emitted by an exit path: either a
requeue of that barrier's sleeper onto the mutex's lock word
(`unlock_requeue(&node.prev->barrier, &m->_m_lock)`, no wake), or a plain
unlock-with-wake of the barrier (`unlock`, i.e. `a_swap` + `__wake`). -/
inductive WakeAction where
  | requeue (barrierOf : Nat)
  | wake (barrierOf : Nat)
deriving DecidableEq, Repr

/-- Lines 184-194, the SIGNALED exit path's effect on the mutex waiter
counter and on other nodes' barriers (`nd` is the caller's own detached
node, `mw` the mutex's `_m_waiters` count):

    if (!node.next) a_inc(&m->_m_waiters);
    if (node.prev) unlock_requeue(&node.prev->barrier, &m->_m_lock);
    else a_dec(&m->_m_waiters);
-/
def signaledPath (nd : Waiter) (mw : Int) : Int × List WakeAction :=
  let mw1 := if nd.next = none then mw + 1 else mw
  match nd.prev with
  | some p => (mw1, [.requeue p])
  | none => (mw1 - 1, [])

/-- Lines 127-153 followed by `goto done`: the timeout exit path.  Under
`_c_lock` the waiter splices its own node out; afterwards, if a racing
signaller installed `notify`, the waiter decrements the shared counter (the
handshake system below).  Returns the new heap and condition variable, the
unchanged mutex waiter count, the (empty) list of barrier effects on other
nodes, and whether the shared counter is decremented. -/
def timeoutPath (h : Heap) (c : CV) (i : Nat) (mw : Int) :
    Heap × CV × Int × List WakeAction × Bool :=
  let hc := removeNode h c i
  (hc.1, hc.2, mw, [], (hc.1 i).notify)

/-! ## The ref-count handshake between the signaller and LEAVING waiters

`__private_cond_signal` increments `ref` once for every visited node found
already out of `WAITING` and points that node's `notify` at `ref`; after
releasing `_c_lock` it spins `while ((cur = ref)) __wait(&ref, 0, cur);`
before unlocking `first->barrier` and returning (lines 247-255).  Each such
LEAVING waiter, on its side, first finishes unlinking its node (lines
127-139) and then performs `a_fetch_add(node.notify, -1)` (lines 150-153).
The interleaving of these threads is the transition system below. -/

/-- Phase of one timing-out waiter that the signaller found in the LEAVING
state: still linked, unlinked but not yet counted down, or done (it has
decremented the shared counter). -/
inductive WPhase where
  | linked
  | unlinked
  | done
deriving DecidableEq, Repr

/-- Global state of the handshake: the phases of the LEAVING waiters the
signaller encountered, the shared `ref` counter, and whether the signaller
has passed the drain loop (released `first->barrier` / returned). -/
structure HSys where
  ws : List WPhase
  ref : Int
  released : Bool
deriving DecidableEq, Repr

/-- Initial handshake state: the walk counted `k` LEAVING waiters, so
`ref = k` and each of the `k` waiters still has to unlink and count down. -/
def initHSys (k : Nat) : HSys :=
  ⟨List.replicate k .linked, (k : Int), false⟩

/-- One interleaved step: a LEAVING waiter unlinks its node (lines 127-139);
a LEAVING waiter that has unlinked decrements `ref` (line 151); or the
signaller, having observed `ref = 0`, exits the drain loop and releases the
first barrier (lines 250-255). -/
inductive HStep : HSys → HSys → Prop where
  | unlink (s : HSys) (idx : Nat) (h : s.ws.get? idx = some .linked) :
      HStep s ⟨s.ws.set idx .unlinked, s.ref, s.released⟩
  | dec (s : HSys) (idx : Nat) (h : s.ws.get? idx = some .unlinked) :
      HStep s ⟨s.ws.set idx .done, s.ref - 1, s.released⟩
  | release (s : HSys) (h : s.ref = 0) :
      HStep s ⟨s.ws, s.ref, true⟩

/-- Reachability in the handshake system. -/
def HReach : HSys → HSys → Prop :=
  Relation.ReflTransGen HStep

/-! ## Concrete example states used to exercise the theorems -/

/-- A two-node waiter heap: node 0 is the younger waiter (at `head`), node 1
the most senior (at `tail`); node 1 has already raced into `LEAVING`. -/
def exHeap : Heap := fun j =>
  if j = 0 then
    { prev := none, next := some 1, state := .WAITING, barrier := 2, notify := false }
  else if j = 1 then
    { prev := some 0, next := none, state := .LEAVING, barrier := 2, notify := false }
  else initNode

/-- The condition variable anchoring the two-node example list `[0, 1]`. -/
def exCV : CV := { head := some 0, tail := some 1 }

end CondVar



/-! ## Theorems -/

namespace CondVar

/-! ### Basic lemmas about heap stores and list boundaries -/

theorem update_same (h : Heap) (i : Nat) (w : Waiter) : update h i w i = w := by
  simp [update]

theorem update_other (h : Heap) (i : Nat) (w : Waiter) {j : Nat} (hne : j ≠ i) :
    update h i w j = h j := by
  simp [update, hne]

theorem headOr_eq_head? (L : List Nat) : headOr L none = L.head? := by
  cases L <;> rfl

theorem headOr_append (xs ys : List Nat) (d : Option Nat) :
    headOr (xs ++ ys) d = headOr xs (headOr ys d) := by
  cases xs <;> rfl

theorem lastOr_eq_getLast? (L : List Nat) : lastOr L none = L.getLast? := by
  unfold lastOr; cases L.getLast? <;> rfl

theorem lastOr_cons (i : Nat) (xs : List Nat) (d : Option Nat) :
    lastOr (i :: xs) d = lastOr xs (some i) := by
  cases xs with
  | nil => rfl
  | cons j ys =>
    unfold lastOr
    rw [List.getLast?_cons_cons]
    cases hgl : (j :: ys).getLast? with
    | some x => rfl
    | none =>
      have : (j :: ys) ≠ [] := by simp
      rw [← List.getLast?_isSome] at this
      rw [hgl] at this
      simp at this

theorem lastOr_append (xs ys : List Nat) (d : Option Nat) :
    lastOr (xs ++ ys) d = lastOr ys (lastOr xs d) := by
  induction xs generalizing d with
  | nil => rfl
  | cons x xs ih => rw [List.cons_append, lastOr_cons, ih, lastOr_cons]

/-! ### Lemmas about the doubly-linked segment predicate -/

theorem seg_congr {h h' : Heap} {L : List Nat}
    (hag : ∀ j ∈ L, (h' j).prev = (h j).prev ∧ (h' j).next = (h j).next) :
    ∀ {pr nx : Option Nat}, seg h pr L nx → seg h' pr L nx := by
  induction L with
  | nil => intro pr nx _; trivial
  | cons i rest ih =>
    intro pr nx hs
    obtain ⟨h1, h2, h3⟩ := hs
    have hi := hag i (by simp)
    exact ⟨hi.1.trans h1, hi.2.trans h2,
      ih (fun j hj => hag j (List.mem_cons_of_mem _ hj)) h3⟩

theorem seg_append {h : Heap} (as bs : List Nat) :
    ∀ {pr nx : Option Nat},
      seg h pr (as ++ bs) nx ↔
        seg h pr as (headOr bs nx) ∧ seg h (lastOr as pr) bs nx := by
  induction as with
  | nil =>
    intro pr nx
    simp [seg, lastOr]
  | cons i rest ih =>
    intro pr nx
    show seg h pr (i :: (rest ++ bs)) nx ↔ _
    constructor
    · rintro ⟨h1, h2, h3⟩
      rw [ih] at h3
      refine ⟨⟨h1, ?_, h3.1⟩, ?_⟩
      · rw [h2, headOr_append]
      · rw [lastOr_cons]; exact h3.2
    · rintro ⟨⟨h1, h2, h3⟩, h4⟩
      rw [lastOr_cons] at h4
      refine ⟨h1, ?_, ?_⟩
      · rw [h2, headOr_append]
      · rw [ih]; exact ⟨h3, h4⟩

theorem seg_set_last_next {h : Heap} {w : Option Nat} :
    ∀ (as : List Nat) {pr v : Option Nat} {p : Nat}, as.Nodup → as.getLast? = some p →
      seg h pr as v → seg (update h p { h p with next := w }) pr as w := by
  intro as
  induction as with
  | nil => intro pr v p _ hlast; simp at hlast
  | cons x rest ih =>
    intro pr v p hnd hlast hs
    obtain ⟨hp, hn, ht⟩ := hs
    cases rest with
    | nil =>
      have hpx : p = x := by
        simp at hlast; exact hlast.symm
      subst hpx
      refine ⟨?_, ?_, trivial⟩
      · rw [update_same]; exact hp
      · rw [update_same]; rfl
    | cons y ys =>
      have hlast' : (y :: ys).getLast? = some p := by
        rw [← List.getLast?_cons_cons]; exact hlast
      have hpx : x ≠ p := by
        intro hxp
        have hpmem : p ∈ y :: ys := by
          have heq := List.getLast?_eq_getLast (y :: ys) (by simp)
          rw [hlast'] at heq
          have hg := List.getLast_mem (l := y :: ys) (by simp)
          rwa [← Option.some_inj.mp heq] at hg
        rw [List.nodup_cons] at hnd
        exact hnd.1 (hxp ▸ hpmem)
      refine ⟨?_, ?_, ih (List.nodup_cons.mp hnd).2 hlast' ht⟩
      · rw [update_other _ _ _ hpx]; exact hp
      · rw [update_other _ _ _ hpx]; exact hn

theorem seg_set_head_prev {h : Heap} {j : Nat} {bs : List Nat} {nx : Option Nat}
    {pr0 : Option Nat} (pr1 : Option Nat) (hj : j ∉ bs) (hs : seg h pr0 (j :: bs) nx) :
    seg (update h j { h j with prev := pr1 }) pr1 (j :: bs) nx := by
  obtain ⟨hp, hn, ht⟩ := hs
  refine ⟨by rw [update_same], by rw [update_same]; exact hn, ?_⟩
  exact seg_congr
    (fun m hm => by
      have : m ≠ j := fun he => hj (he ▸ hm)
      rw [update_other _ _ _ this]; exact ⟨rfl, rfl⟩) ht

theorem lastOr_of_ne_nil {L : List Nat} (d : Option Nat) (hL : L ≠ []) :
    lastOr L d = L.getLast? := by
  unfold lastOr
  cases hgl : L.getLast? with
  | some x => rfl
  | none =>
    rw [← List.getLast?_isSome] at hL
    rw [hgl] at hL
    simp at hL

theorem getLast?_append_right (as bs : List Nat) (hbs : bs ≠ []) :
    (as ++ bs).getLast? = bs.getLast? := by
  calc (as ++ bs).getLast? = lastOr (as ++ bs) none := (lastOr_eq_getLast? _).symm
    _ = lastOr bs (lastOr as none) := lastOr_append as bs none
    _ = bs.getLast? := lastOr_of_ne_nil _ hbs

/-! ### Reachable branches of the self-removal code -/

theorem removeNode_singleton (h : Heap) (c : CV) (i : Nat)
    (hh : c.head = some i) (hct : c.tail = some i) :
    removeNode h c i = (h, ⟨(h i).next, (h i).prev⟩) := by
  simp only [removeNode, hh, hct, eq_self_iff_true, if_true]

theorem removeNode_head (h : Heap) (c : CV) (i nx : Nat)
    (hh : c.head = some i) (hct : c.tail ≠ some i) (hnx : (h i).next = some nx) :
    removeNode h c i =
      (update h nx { h nx with prev := (h i).prev }, ⟨some nx, c.tail⟩) := by
  simp only [removeNode, hh, hnx, eq_self_iff_true, if_true, eq_false hct, if_false]

theorem removeNode_tail (h : Heap) (c : CV) (i p : Nat)
    (hh : c.head ≠ some i) (hp : (h i).prev = some p) (hct : c.tail = some i) :
    removeNode h c i =
      (update h p { h p with next := (h i).next }, ⟨c.head, (h i).prev⟩) := by
  simp only [removeNode, eq_false hh, if_false, hp, hct, eq_self_iff_true, if_true]

theorem removeNode_middle (h : Heap) (c : CV) (i p nx : Nat)
    (hh : c.head ≠ some i) (hp : (h i).prev = some p) (hct : c.tail ≠ some i)
    (hnx : (h i).next = some nx) :
    removeNode h c i =
      (update (update h p { h p with next := (h i).next }) nx
        { (update h p { h p with next := (h i).next }) nx with prev := (h i).prev },
       c) := by
  simp only [removeNode, eq_false hh, if_false, hp, hnx, eq_false hct]

/-! ### Preservation of the representation -/

theorem represents_nil_iff {h : Heap} {c : CV} {L : List Nat} (hR : Represents h c L) :
    (c.head = none ∧ c.tail = none) ↔ L = [] := by
  obtain ⟨hnd, hh, ht, hs⟩ := hR
  constructor
  · rintro ⟨h1, h2⟩
    cases L with
    | nil => rfl
    | cons i rest => rw [hh] at h1; simp at h1
  · rintro rfl
    exact ⟨hh, ht⟩

theorem insert_represents {h : Heap} {c : CV} {L : List Nat} (i : Nat)
    (hR : Represents h c L) (hi : i ∉ L) :
    Represents (insertNode h c i).1 (insertNode h c i).2 (i :: L) := by
  obtain ⟨hnd, hh, ht, hs⟩ := hR
  cases L with
  | nil =>
    have hch : c.head = none := hh
    have hct : c.tail = none := ht
    simp only [insertNode, hch, hct]
    refine ⟨by simp, rfl, rfl, ?_, ?_, trivial⟩
    · rw [update_same]; rfl
    · rw [update_same]; rfl
  | cons j L' =>
    have hch : c.head = some j := hh
    have hij : i ≠ j := fun he => hi (he ▸ List.mem_cons_self j L')
    obtain ⟨hjp, hjn, hjs⟩ := hs
    have hiL' : i ∉ L' := fun hm => hi (List.mem_cons_of_mem _ hm)
    have hjL' : j ∉ L' := (List.nodup_cons.mp hnd).1
    have htne : (j :: L').getLast?.isSome := List.getLast?_isSome.mpr (by simp)
    obtain ⟨t, hct'⟩ := Option.isSome_iff_exists.mp htne
    have hct : c.tail = some t := by rw [ht, hct']
    simp only [insertNode, hch, hct]
    refine ⟨?_, rfl, ?_, ?_, ?_, ?_, ?_, ?_⟩
    · rw [List.nodup_cons]; exact ⟨hi, hnd⟩
    · show some t = (i :: j :: L').getLast?
      rw [List.getLast?_cons_cons]
      exact hct'.symm
    · -- prev link of the new head node i
      rw [update_other _ _ _ hij, update_same]; rfl
    · -- next link of the new head node i
      rw [update_other _ _ _ hij, update_same]; rfl
    · -- prev link of the old head node j
      rw [update_same]
    · -- next link of the old head node j
      rw [update_same]
      show (update h i { initNode with next := some j } j).next = _
      rw [update_other _ _ _ (fun he => hij he.symm)]
      exact hjn
    · refine seg_congr (fun m hm => ?_) hjs
      have hmj : m ≠ j := fun he => hjL' (he ▸ hm)
      have hmi : m ≠ i := fun he => hiL' (he ▸ hm)
      rw [update_other _ _ _ hmj, update_other _ _ _ hmi]
      exact ⟨rfl, rfl⟩

theorem remove_represents {h : Heap} {c : CV} {L : List Nat} (i : Nat)
    (hR : Represents h c L) (hi : i ∈ L) :
    Represents (removeNode h c i).1 (removeNode h c i).2 (L.erase i) := by
  obtain ⟨as, bs, rfl⟩ := List.append_of_mem hi
  obtain ⟨hnd, hh, ht, hs⟩ := hR
  rw [List.nodup_append] at hnd
  obtain ⟨hasnd, hcbsnd, hdisj⟩ := hnd
  have hias : i ∉ as := fun hmem => hdisj hmem (List.mem_cons_self _ _)
  obtain ⟨hibs, hbsnd⟩ := List.nodup_cons.mp hcbsnd
  have herase : (as ++ i :: bs).erase i = as ++ bs := by
    rw [List.erase_append_right _ hias, List.erase_cons_head]
  rw [herase]
  rw [seg_append] at hs
  have hseg_as : seg h none as (some i) := hs.1
  obtain ⟨hiprev, hinext, hseg_bs⟩ := hs.2
  have htail : c.tail = lastOr bs (some i) := by
    rw [ht, ← lastOr_eq_getLast?, lastOr_append, lastOr_cons]
  cases as with
  | nil =>
    have hch : c.head = some i := hh
    have hipn : (h i).prev = none := hiprev
    cases bs with
    | nil =>
      have hct : c.tail = some i := htail
      rw [removeNode_singleton h c i hch hct]
      exact ⟨List.nodup_nil, (hinext : (h i).next = none), hipn, trivial⟩
    | cons j bs' =>
      have hjbs' : j ∉ bs' := (List.nodup_cons.mp hbsnd).1
      have hct : c.tail ≠ some i := by
        rw [htail, lastOr_of_ne_nil _ (by simp)]
        intro hcon
        have heq := List.getLast?_eq_getLast (j :: bs') (by simp)
        rw [hcon] at heq
        have hg := List.getLast_mem (l := j :: bs') (by simp)
        rw [← Option.some_inj.mp heq] at hg
        exact hibs hg
      have hnx : (h i).next = some j := hinext
      rw [removeNode_head h c i j hch hct hnx, hipn]
      refine ⟨hbsnd, rfl, ?_, ?_⟩
      · show c.tail = (j :: bs').getLast?
        rw [htail, lastOr_of_ne_nil _ (by simp)]
      · exact seg_set_head_prev none hjbs' hseg_bs
  | cons a as' =>
    have hanein : a ≠ i := fun he => hias (he ▸ List.mem_cons_self a as')
    have hch : c.head ≠ some i := by
      rw [hh]
      simp only [List.cons_append, List.head?_cons]
      exact fun hcon => hanein (Option.some_inj.mp hcon)
    have hasne : (a :: as') ≠ ([] : List Nat) := by simp
    obtain ⟨p, hplast⟩ := Option.isSome_iff_exists.mp (List.getLast?_isSome.mpr hasne)
    have hpmem : p ∈ a :: as' := by
      have heq := List.getLast?_eq_getLast (a :: as') hasne
      rw [hplast] at heq
      have hg := List.getLast_mem (l := a :: as') hasne
      rwa [← Option.some_inj.mp heq] at hg
    have hp : (h i).prev = some p := by
      rw [hiprev, lastOr_of_ne_nil _ hasne, hplast]
    cases bs with
    | nil =>
      have hct : c.tail = some i := htail
      have hnn : (h i).next = none := hinext
      rw [removeNode_tail h c i p hch hp hct, hp, hnn, List.append_nil]
      refine ⟨hasnd, ?_, ?_, ?_⟩
      · rw [hh]; simp
      · exact hplast.symm
      · exact seg_set_last_next _ hasnd hplast hseg_as
    | cons j bs' =>
      have hjbs' : j ∉ bs' := (List.nodup_cons.mp hbsnd).1
      have hjmem : j ∈ j :: bs' := List.mem_cons_self _ _
      have hpbs : p ∉ j :: bs' := fun hm => hdisj hpmem (List.mem_cons_of_mem _ hm)
      have hjas : j ∉ a :: as' := fun hm => hdisj hm (List.mem_cons_of_mem _ hjmem)
      have hct : c.tail ≠ some i := by
        rw [htail, lastOr_of_ne_nil _ (by simp)]
        intro hcon
        have heq := List.getLast?_eq_getLast (j :: bs') (by simp)
        rw [hcon] at heq
        have hg := List.getLast_mem (l := j :: bs') (by simp)
        rw [← Option.some_inj.mp heq] at hg
        exact hibs hg
      have hnx : (h i).next = some j := hinext
      rw [removeNode_middle h c i p j hch hp hct hnx, hp, hnx]
      show Represents
        (update (update h p { h p with next := some j }) j
          { (update h p { h p with next := some j }) j with prev := some p })
        c (a :: as' ++ j :: bs')
      refine ⟨?_, ?_, ?_, ?_⟩
      · rw [List.nodup_append]
        refine ⟨hasnd, hbsnd, ?_⟩
        intro x hxa hxb
        exact hdisj hxa (List.mem_cons_of_mem _ hxb)
      · rw [hh]; simp
      · rw [htail, lastOr_of_ne_nil _ (show (j :: bs') ≠ ([] : List Nat) by simp)]
        rw [show (a :: as' ++ j :: bs') = ((a :: as') ++ (j :: bs')) from rfl]
        rw [getLast?_append_right _ _ (show (j :: bs') ≠ ([] : List Nat) by simp)]
      · rw [show (a :: as' ++ j :: bs') = ((a :: as') ++ (j :: bs')) from rfl]
        rw [seg_append]
        constructor
        · -- as-side: the last node of as now points at j, other links kept
          have step1 : seg (update h p { h p with next := some j }) none (a :: as')
              (some j) := seg_set_last_next _ hasnd hplast hseg_as
          refine seg_congr (fun m hm => ?_) step1
          have hmj : m ≠ j := fun he => hjas (he ▸ hm)
          rw [update_other _ _ _ hmj]
          exact ⟨rfl, rfl⟩
        · -- bs-side: its head now points back at p, other links kept
          have hlastas : lastOr (a :: as') none = some p := by
            rw [lastOr_eq_getLast?, hplast]
          rw [hlastas]
          have step1 : seg (update h p { h p with next := some j }) (some i)
              (j :: bs') none := by
            refine seg_congr (fun m hm => ?_) hseg_bs
            have hmp : m ≠ p := fun he => hpbs (he ▸ hm)
            rw [update_other _ _ _ hmp]
            exact ⟨rfl, rfl⟩
          exact seg_set_head_prev (some p) hjbs' step1

/-! ### The reverse (tail-to-head) chain and the forward traversal -/

theorem prevChain_congr {h h' : Heap} {W : List Nat}
    (hag : ∀ j ∈ W, (h' j).prev = (h j).prev) :
    ∀ {p : Option Nat}, prevChain h p W → prevChain h' p W := by
  induction W with
  | nil => intro p hp; exact hp
  | cons i W' ih =>
    intro p hp
    obtain ⟨h1, h2⟩ := hp
    refine ⟨h1, ?_⟩
    rw [hag i (by simp)]
    exact ih (fun j hj => hag j (List.mem_cons_of_mem _ hj)) h2

theorem seg_prevChain {h : Heap} :
    ∀ {L : List Nat} {pr nx : Option Nat} {W0 : List Nat},
      seg h pr L nx → prevChain h pr W0 →
      prevChain h (lastOr L pr) (L.reverse ++ W0) := by
  intro L
  induction L with
  | nil => intro pr nx W0 _ hpc; exact hpc
  | cons i rest ih =>
    intro pr nx W0 hs hpc
    obtain ⟨h1, h2, h3⟩ := hs
    have hstep : prevChain h (some i) (i :: W0) := ⟨rfl, by rw [h1]; exact hpc⟩
    have hrec := ih h3 hstep
    rw [lastOr_cons, List.reverse_cons, List.append_assoc]
    exact hrec

theorem represents_prevChain {h : Heap} {c : CV} {L : List Nat}
    (hR : Represents h c L) : prevChain h c.tail L.reverse := by
  obtain ⟨hnd, hh, ht, hs⟩ := hR
  have hrec := seg_prevChain hs (show prevChain h none [] from rfl)
  rw [List.append_nil] at hrec
  rw [ht, ← lastOr_eq_getLast?]
  exact hrec

theorem seg_walkNext {h : Heap} :
    ∀ {L : List Nat} {pr : Option Nat}, seg h pr L none →
      walkNext h (headOr L none) L.length = some L := by
  intro L
  induction L with
  | nil => intro pr _; rfl
  | cons i rest ih =>
    intro pr hs
    obtain ⟨h1, h2, h3⟩ := hs
    show walkNext h (some i) (rest.length + 1) = some (i :: rest)
    simp only [walkNext]
    rw [h2, ih h3]
    rfl

theorem represents_walkNext {h : Heap} {c : CV} {L : List Nat}
    (hR : Represents h c L) : walkNext h c.head L.length = some L := by
  have hs := hR.2.2.2
  rw [hR.2.1, ← headOr_eq_head?]
  exact seg_walkNext hs

/-! ### Properties of the specification-level walk -/

theorem optOr_none (a : Option Nat) : optOr a none = a := by
  cases a <;> rfl

theorem optOr_some_absorb (a : Option Nat) (x : Nat) (b : Option Nat) :
    optOr (optOr a (some x)) b = optOr a (some x) := by
  cases a <;> rfl

theorem walkSpec_congr {st st' : Nat → WState} :
    ∀ (W : List Nat) (n : Int), (∀ j ∈ W, st' j = st j) →
      walkSpec st' n W = walkSpec st n W := by
  intro W
  induction W with
  | nil => intro n _; rfl
  | cons i W' ih =>
    intro n hag
    have hi : st' i = st i := hag i (by simp)
    have hrec : ∀ m : Int, walkSpec st' m W' = walkSpec st m W' :=
      fun m => ih m (fun j hj => hag j (List.mem_cons_of_mem _ hj))
    by_cases hn : n = 0
    · simp only [walkSpec, if_pos hn]
    · by_cases hw : st i = .WAITING
      · simp only [walkSpec, if_neg hn, hi, if_pos hw, hrec]
      · simp only [walkSpec, if_neg hn, hi, if_neg hw, hrec]

theorem walkSpec_mem (st : Nat → WState) :
    ∀ (W : List Nat) (n : Int) (x : Nat),
      (x ∈ (walkSpec st n W).sig → x ∈ W) ∧ (x ∈ (walkSpec st n W).lv → x ∈ W) := by
  intro W
  induction W with
  | nil =>
    intro n x
    exact ⟨fun hx => by simp [walkSpec] at hx, fun hx => by simp [walkSpec] at hx⟩
  | cons i W' ih =>
    intro n x
    by_cases hn : n = 0
    · constructor
      · intro hx; simp [walkSpec, if_pos hn] at hx
      · intro hx; simp [walkSpec, if_pos hn] at hx
    · by_cases hw : st i = .WAITING
      · constructor
        · intro hx
          simp only [walkSpec, if_neg hn, if_pos hw] at hx
          rcases List.mem_cons.mp hx with hx | hx
          · exact List.mem_cons.mpr (Or.inl hx)
          · exact List.mem_cons_of_mem _ ((ih (n - 1) x).1 hx)
        · intro hx
          simp only [walkSpec, if_neg hn, if_pos hw] at hx
          exact List.mem_cons_of_mem _ ((ih (n - 1) x).2 hx)
      · constructor
        · intro hx
          simp only [walkSpec, if_neg hn, if_neg hw] at hx
          exact List.mem_cons_of_mem _ ((ih n x).1 hx)
        · intro hx
          simp only [walkSpec, if_neg hn, if_neg hw] at hx
          rcases List.mem_cons.mp hx with hx | hx
          · exact List.mem_cons.mpr (Or.inl hx)
          · exact List.mem_cons_of_mem _ ((ih n x).2 hx)

theorem walkSpec_char (st : Nat → WState) :
    ∀ (W : List Nat) (n : Int),
      (walkSpec st n W).k ≤ W.length ∧
      (walkSpec st n W).sig =
        (W.take (walkSpec st n W).k).filter (fun i => decide (st i = .WAITING)) ∧
      (walkSpec st n W).lv =
        (W.take (walkSpec st n W).k).filter (fun i => !decide (st i = .WAITING)) ∧
      (walkSpec st n W).stop = (W.drop (walkSpec st n W).k).head? ∧
      (walkSpec st n W).nLeft = n - (walkSpec st n W).sig.length ∧
      ((walkSpec st n W).nLeft = 0 ∨ (walkSpec st n W).k = W.length) ∧
      (∀ j, j < (walkSpec st n W).k →
        n - (((W.take j).filter (fun i => decide (st i = .WAITING))).length : Int) ≠ 0) := by
  intro W
  induction W with
  | nil =>
    intro n
    refine ⟨Nat.le_refl _, rfl, rfl, rfl, by simp [walkSpec], Or.inr rfl, ?_⟩
    intro j hj
    exact absurd hj (by simp [walkSpec])
  | cons i W' ih =>
    intro n
    by_cases hn : n = 0
    · simp only [walkSpec, if_pos hn]
      refine ⟨Nat.zero_le _, rfl, rfl, rfl, by simp [hn], Or.inl hn, ?_⟩
      intro j hj
      exact absurd hj (Nat.not_lt_zero j)
    · by_cases hw : st i = .WAITING
      · obtain ⟨ihk, ihsig, ihlv, ihstop, ihn, ihor, ihmin⟩ := ih (n - 1)
        simp only [walkSpec, if_neg hn, if_pos hw]
        refine ⟨?_, ?_, ?_, ?_, ?_, ?_, ?_⟩
        · simpa using Nat.succ_le_succ ihk
        · rw [List.take_succ_cons, List.filter_cons]
          simp [hw]
          exact ihsig
        · rw [List.take_succ_cons, List.filter_cons]
          simp [hw]
          exact ihlv
        · rw [List.drop_succ_cons]
          exact ihstop
        · rw [ihn]
          simp only [List.length_cons]
          push_cast
          ring
        · rcases ihor with hor | hor
          · exact Or.inl hor
          · exact Or.inr (by simp [hor])
        · intro j hj
          cases j with
          | zero => simpa using hn
          | succ j' =>
            have hj' : j' < (walkSpec st (n - 1) W').k := Nat.lt_of_succ_lt_succ hj
            have hmin := ihmin j' hj'
            rw [List.take_succ_cons, List.filter_cons]
            simp only [hw, eq_self_iff_true, decide_True, if_true, List.length_cons]
            intro hcon
            exact hmin (by push_cast at hcon ⊢; omega)
      · obtain ⟨ihk, ihsig, ihlv, ihstop, ihn, ihor, ihmin⟩ := ih n
        simp only [walkSpec, if_neg hn, if_neg hw]
        refine ⟨?_, ?_, ?_, ?_, ?_, ?_, ?_⟩
        · simpa using Nat.succ_le_succ ihk
        · rw [List.take_succ_cons, List.filter_cons]
          simp [hw]
          exact ihsig
        · rw [List.take_succ_cons, List.filter_cons]
          simp [hw]
          exact ihlv
        · rw [List.drop_succ_cons]
          exact ihstop
        · exact ihn
        · rcases ihor with hor | hor
          · exact Or.inl hor
          · exact Or.inr (by simp [hor])
        · intro j hj
          cases j with
          | zero => simpa using hn
          | succ j' =>
            have hj' : j' < (walkSpec st n W').k := Nat.lt_of_succ_lt_succ hj
            have hmin := ihmin j' hj'
            rw [List.take_succ_cons, List.filter_cons]
            simp [hw]
            exact hmin

/-! ### The heap-level walk agrees with the specification-level walk -/

theorem signalWalk_spec :
    ∀ (W : List Nat) (h : Heap) (n : Int) (p first : Option Nat) (ref fuel : Nat),
      prevChain h p W → W.Nodup → W.length ≤ fuel →
      (∀ j, (signalWalk h n p first ref fuel).h j =
          updWalk h (walkSpec (fun m => (h m).state) n W).sig
            (walkSpec (fun m => (h m).state) n W).lv j) ∧
      (signalWalk h n p first ref fuel).n = (walkSpec (fun m => (h m).state) n W).nLeft ∧
      (signalWalk h n p first ref fuel).p = (walkSpec (fun m => (h m).state) n W).stop ∧
      (signalWalk h n p first ref fuel).first =
        optOr first (walkSpec (fun m => (h m).state) n W).sig.head? ∧
      (signalWalk h n p first ref fuel).ref =
        ref + (walkSpec (fun m => (h m).state) n W).lv.length := by
  intro W
  induction W with
  | nil =>
    intro h n p first ref fuel hchain _ _
    have hp : p = none := hchain
    subst hp
    have hws : walkSpec (fun m => (h m).state) n ([] : List Nat) = ⟨0, [], [], n, none⟩ := rfl
    rw [hws]
    cases fuel with
    | zero =>
      exact ⟨fun j => by simp [signalWalk, updWalk], by simp [signalWalk],
        by simp [signalWalk], by simp [signalWalk, optOr_none], by simp [signalWalk]⟩
    | succ fuel' =>
      exact ⟨fun j => by simp [signalWalk, updWalk], by simp [signalWalk],
        by simp [signalWalk], by simp [signalWalk, optOr_none], by simp [signalWalk]⟩
  | cons i W' ih =>
    intro h n p first ref fuel hchain hnd hfuel
    obtain ⟨hpi, hchain'⟩ := hchain
    subst hpi
    obtain ⟨hiW', hndW'⟩ := List.nodup_cons.mp hnd
    cases fuel with
    | zero => exact absurd hfuel (by simp)
    | succ fuel' =>
      have hfuel' : W'.length ≤ fuel' := Nat.le_of_succ_le_succ hfuel
      by_cases hn0 : n = 0
      · subst hn0
        have hws : walkSpec (fun m => (h m).state) 0 (i :: W') = ⟨0, [], [], 0, some i⟩ := by
          simp [walkSpec]
        have hsw : signalWalk h 0 (some i) first ref (fuel' + 1) = ⟨h, 0, some i, first, ref⟩ := by
          simp [signalWalk]
        rw [hws, hsw]
        exact ⟨fun j => by simp [updWalk], rfl, rfl, (optOr_none first).symm, by simp⟩
      · by_cases hw : (h i).state = .WAITING
        · -- the CAS `WAITING → SIGNALED` succeeds on node i
          have hsw : signalWalk h n (some i) first ref (fuel' + 1) =
              signalWalk (update h i { h i with state := .SIGNALED }) (n - 1)
                ((h i).prev) (optOr first (some i)) ref fuel' := by
            simp only [signalWalk, if_neg hn0, if_pos hw, update_same]
            cases first <;> rfl
          have hprev' : prevChain (update h i { h i with state := .SIGNALED })
              ((h i).prev) W' := by
            refine prevChain_congr (fun j hj => ?_) hchain'
            have hji : j ≠ i := fun he => hiW' (he ▸ hj)
            rw [update_other _ _ _ hji]
          have hIH := ih (update h i { h i with state := .SIGNALED }) (n - 1) ((h i).prev)
            (optOr first (some i)) ref fuel'
            hprev' hndW' hfuel'
          have hstcongr :
              walkSpec (fun m => ((update h i { h i with state := .SIGNALED }) m).state)
                (n - 1) W' = walkSpec (fun m => (h m).state) (n - 1) W' := by
            refine walkSpec_congr W' (n - 1) (fun j hj => ?_)
            have hji : j ≠ i := fun he => hiW' (he ▸ hj)
            rw [update_other _ _ _ hji]
          rw [hstcongr] at hIH
          obtain ⟨ihh, ihn, ihstop, ihfirst, ihref⟩ := hIH
          have hws : walkSpec (fun m => (h m).state) n (i :: W') =
              ⟨(walkSpec (fun m => (h m).state) (n - 1) W').k + 1,
               i :: (walkSpec (fun m => (h m).state) (n - 1) W').sig,
               (walkSpec (fun m => (h m).state) (n - 1) W').lv,
               (walkSpec (fun m => (h m).state) (n - 1) W').nLeft,
               (walkSpec (fun m => (h m).state) (n - 1) W').stop⟩ := by
            simp [walkSpec, hn0, hw]
          rw [hsw, hws]
          refine ⟨?_, ihn, ihstop, ?_, ihref⟩
          · intro j
            rw [ihh j]
            by_cases hji : j = i
            · subst hji
              have hjsig : j ∉ (walkSpec (fun m => (h m).state) (n - 1) W').sig :=
                fun hm => hiW' ((walkSpec_mem _ W' (n - 1) j).1 hm)
              have hjlv : j ∉ (walkSpec (fun m => (h m).state) (n - 1) W').lv :=
                fun hm => hiW' ((walkSpec_mem _ W' (n - 1) j).2 hm)
              simp [updWalk, hjsig, hjlv, update_same]
            · have hmemiff :
                  (j ∈ i :: (walkSpec (fun m => (h m).state) (n - 1) W').sig) ↔
                    j ∈ (walkSpec (fun m => (h m).state) (n - 1) W').sig := by
                simp [List.mem_cons, hji]
              simp only [updWalk, update_other _ _ _ hji, hmemiff]
          · rw [ihfirst]
            show optOr (optOr first (some i)) _ = _
            rw [optOr_some_absorb]
            rfl
        · -- the CAS fails: node i had already raced into LEAVING
          have hsw : signalWalk h n (some i) first ref (fuel' + 1) =
              signalWalk (update h i { h i with notify := true }) n
                ((h i).prev) first (ref + 1) fuel' := by
            simp only [signalWalk, if_neg hn0, if_neg hw, update_same]
          have hprev' : prevChain (update h i { h i with notify := true })
              ((h i).prev) W' := by
            refine prevChain_congr (fun j hj => ?_) hchain'
            have hji : j ≠ i := fun he => hiW' (he ▸ hj)
            rw [update_other _ _ _ hji]
          have hIH := ih (update h i { h i with notify := true }) n ((h i).prev)
            first (ref + 1) fuel' hprev' hndW' hfuel'
          have hstcongr :
              walkSpec (fun m => ((update h i { h i with notify := true }) m).state)
                n W' = walkSpec (fun m => (h m).state) n W' := by
            refine walkSpec_congr W' n (fun j hj => ?_)
            have hji : j ≠ i := fun he => hiW' (he ▸ hj)
            rw [update_other _ _ _ hji]
          rw [hstcongr] at hIH
          obtain ⟨ihh, ihn, ihstop, ihfirst, ihref⟩ := hIH
          have hws : walkSpec (fun m => (h m).state) n (i :: W') =
              ⟨(walkSpec (fun m => (h m).state) n W').k + 1,
               (walkSpec (fun m => (h m).state) n W').sig,
               i :: (walkSpec (fun m => (h m).state) n W').lv,
               (walkSpec (fun m => (h m).state) n W').nLeft,
               (walkSpec (fun m => (h m).state) n W').stop⟩ := by
            simp [walkSpec, hn0, hw]
          rw [hsw, hws]
          refine ⟨?_, ihn, ihstop, ihfirst, ?_⟩
          · intro j
            rw [ihh j]
            by_cases hji : j = i
            · subst hji
              have hjsig : j ∉ (walkSpec (fun m => (h m).state) n W').sig :=
                fun hm => hiW' ((walkSpec_mem _ W' n j).1 hm)
              have hjlv : j ∉ (walkSpec (fun m => (h m).state) n W').lv :=
                fun hm => hiW' ((walkSpec_mem _ W' n j).2 hm)
              simp [updWalk, hjsig, hjlv, update_same]
            · have hmemiff :
                  (j ∈ i :: (walkSpec (fun m => (h m).state) n W').lv) ↔
                    j ∈ (walkSpec (fun m => (h m).state) n W').lv := by
                simp [List.mem_cons, hji]
              simp only [updWalk, update_other _ _ _ hji, hmemiff]
          · rw [ihref]
            simp [List.length_cons]
            omega

/-! ### The split phase of the signal operation -/

theorem updWalk_links (h : Heap) (sig lv : List Nat) (j : Nat) :
    ((updWalk h sig lv j).prev = (h j).prev) ∧
      ((updWalk h sig lv j).next = (h j).next) := by
  unfold updWalk
  split_ifs <;> exact ⟨rfl, rfl⟩

theorem updWalk_state_notify (h : Heap) (sig lv : List Nat) (j : Nat) :
    (updWalk h sig lv j).state = (if j ∈ sig then WState.SIGNALED else (h j).state) ∧
      (updWalk h sig lv j).notify = (if j ∉ sig ∧ j ∈ lv then true else (h j).notify) := by
  unfold updWalk
  by_cases h1 : j ∈ sig
  · simp [h1]
  · by_cases h2 : j ∈ lv <;> simp [h1, h2]

theorem seg_last_next {h : Heap} :
    ∀ {R : List Nat} {pr v : Option Nat} {tl : Nat},
      seg h pr R v → R.getLast? = some tl → (h tl).next = v := by
  intro R
  induction R with
  | nil => intro pr v tl _ hlast; simp at hlast
  | cons x rest ih =>
    intro pr v tl hs hlast
    obtain ⟨h1, h2, h3⟩ := hs
    cases rest with
    | nil =>
      have hx : tl = x := by simp at hlast; exact hlast.symm
      subst hx
      exact h2
    | cons y ys =>
      exact ih h3 (by rw [← List.getLast?_cons_cons]; exact hlast)

theorem signalSplit_represents {h1 : Heap} {c : CV} {R D L : List Nat}
    (hnd : L.Nodup) (hRD : R ++ D = L)
    (hh : c.head = L.head?) (hseg : seg h1 none L none) :
    Represents (signalSplit h1 c R.getLast?).1 (signalSplit h1 c R.getLast?).2 R := by
  subst hRD
  rw [List.nodup_append] at hnd
  obtain ⟨hndR, hndD, hdisj⟩ := hnd
  cases hR0 : R.getLast? with
  | none =>
    have hRnil : R = [] := List.getLast?_eq_none_iff.mp hR0
    subst hRnil
    simp only [signalSplit]
    exact ⟨List.nodup_nil, rfl, rfl, trivial⟩
  | some tl =>
    have hRne : R ≠ [] := by intro hc; rw [hc] at hR0; simp at hR0
    rw [seg_append] at hseg
    have htlnext : (h1 tl).next = headOr D none := seg_last_next hseg.1 hR0
    obtain ⟨x, R'', rfl⟩ : ∃ x R'', R = x :: R'' := by
      cases R with
      | nil => exact absurd rfl hRne
      | cons x R'' => exact ⟨x, R'', rfl⟩
    cases D with
    | nil =>
      simp only [signalSplit, htlnext]
      refine ⟨hndR, ?_, hR0.symm, ?_⟩
      · rw [hh]; simp
      · exact seg_set_last_next _ hndR hR0 hseg.1
    | cons d D' =>
      have hdR : d ∉ x :: R'' := fun hm => hdisj hm (List.mem_cons_self _ _)
      simp only [signalSplit, htlnext]
      refine ⟨hndR, ?_, hR0.symm, ?_⟩
      · rw [hh]; simp
      · have hseg2 : seg (update h1 d { h1 d with prev := none }) none (x :: R'')
            (headOr (d :: D') none) := by
          refine seg_congr (fun m hm => ?_) hseg.1
          have hmd : m ≠ d := fun he => hdR (he ▸ hm)
          rw [update_other _ _ _ hmd]
          exact ⟨rfl, rfl⟩
        exact seg_set_last_next _ hndR hR0 hseg2

theorem signal_represents {h : Heap} {c : CV} {L : List Nat} (n : Int) (fuel : Nat)
    (hR : Represents h c L) (hfuel : L.length ≤ fuel) :
    Represents (private_cond_signal h c n fuel).1
      (private_cond_signal h c n fuel).2.1 (signalRemainder h n L) := by
  obtain ⟨hnd, hh, ht, hs⟩ := hR
  have hchain := represents_prevChain ⟨hnd, hh, ht, hs⟩
  have hndrev : L.reverse.Nodup := List.nodup_reverse.mpr hnd
  have hfuelrev : L.reverse.length ≤ fuel := by rw [List.length_reverse]; exact hfuel
  obtain ⟨bh, bn, bp, bfirst, bref⟩ :=
    signalWalk_spec L.reverse h n c.tail none 0 fuel hchain hndrev hfuelrev
  obtain ⟨hk, hsig, hlv, hstop, hnl, hor, hmin⟩ :=
    walkSpec_char (fun m => (h m).state) L.reverse n
  have hlinks : ∀ j, (((signalWalk h n c.tail none 0 fuel).h) j).prev = (h j).prev ∧
      (((signalWalk h n c.tail none 0 fuel).h) j).next = (h j).next := by
    intro j
    rw [bh j]
    exact updWalk_links _ _ _ j
  have hseg1 : seg ((signalWalk h n c.tail none 0 fuel).h) none L none :=
    seg_congr (fun j _ => hlinks j) hs
  have hstopR : (signalWalk h n c.tail none 0 fuel).p =
      (signalRemainder h n L).getLast? := by
    rw [bp, hstop, List.drop_reverse, List.head?_reverse]
    rfl
  have hRD : signalRemainder h n L ++
      L.drop (L.length - (walkSpec (fun m => (h m).state) n L.reverse).k) = L :=
    List.take_append_drop _ _
  show Represents
    (signalSplit ((signalWalk h n c.tail none 0 fuel).h) c
      ((signalWalk h n c.tail none 0 fuel).p)).1
    (signalSplit ((signalWalk h n c.tail none 0 fuel).h) c
      ((signalWalk h n c.tail none 0 fuel).p)).2
    (signalRemainder h n L)
  rw [hstopR]
  exact signalSplit_represents hnd hRD hh hseg1

theorem signalSplit_state_notify (h : Heap) (c : CV) (p : Option Nat) (j : Nat) :
    (((signalSplit h c p).1) j).state = (h j).state ∧
      (((signalSplit h c p).1) j).notify = (h j).notify := by
  cases p with
  | none => exact ⟨rfl, rfl⟩
  | some i =>
    simp only [signalSplit]
    cases hnx : (h i).next with
    | none =>
      simp only [update]
      by_cases hji : j = i <;> simp [hji]
    | some nx =>
      simp only [update]
      by_cases hji : j = i <;> by_cases hjnx : j = nx <;> simp [hji, hjnx] <;>
        by_cases hinx : i = nx <;> simp [hinx, eq_comm]

theorem attached_represents : ∀ {h : Heap} {c : CV} {L : List Nat},
    Attached h c L → Represents h c L := by
  intro h c L hA
  induction hA with
  | empty h => exact ⟨List.nodup_nil, rfl, rfl, trivial⟩
  | insert i hA hi ih => exact insert_represents i ih hi
  | remove i hA hi ih => exact remove_represents i ih hi
  | signal n fuel hA hfuel ih => exact signal_represents n fuel ih hfuel

/-- C2: `__private_cond_signal(c, n)` walks from the tail toward the head
(`L.reverse` is the walk order when `L` is the head-first attached list),
CAS-ing `WAITING → SIGNALED` on exactly the still-waiting nodes among the
first `k` visited, counts only successful transitions toward `n`, stops once
`n` nodes were signalled (before every visited prefix the count was still
outstanding) or the walk passes the head end, and remembers as `first` the
head of the signalled list — the most senior waiting node — so the
oldest-inserted attached waiter is released first. -/
theorem signal_walk_fifo (h : Heap) (c : CV) (L : List Nat) (n : Int) (fuel : Nat)
    (hR : Represents h c L) (hfuel : L.length ≤ fuel) :
    (walkSpec (fun m => (h m).state) n L.reverse).sig =
      (L.reverse.take (walkSpec (fun m => (h m).state) n L.reverse).k).filter
        (fun i => decide ((h i).state = .WAITING)) ∧
    (walkSpec (fun m => (h m).state) n L.reverse).lv =
      (L.reverse.take (walkSpec (fun m => (h m).state) n L.reverse).k).filter
        (fun i => !decide ((h i).state = .WAITING)) ∧
    (walkSpec (fun m => (h m).state) n L.reverse).k ≤ L.length ∧
    (∀ j, ((private_cond_signal h c n fuel).1 j).state =
      (updWalk h (walkSpec (fun m => (h m).state) n L.reverse).sig
        (walkSpec (fun m => (h m).state) n L.reverse).lv j).state) ∧
    (n - ((walkSpec (fun m => (h m).state) n L.reverse).sig.length : Int) = 0 ∨
      (walkSpec (fun m => (h m).state) n L.reverse).k = L.length) ∧
    (∀ j, j < (walkSpec (fun m => (h m).state) n L.reverse).k →
      n - (((L.reverse.take j).filter
        (fun i => decide ((h i).state = .WAITING))).length : Int) ≠ 0) ∧
    (private_cond_signal h c n fuel).2.2.1 =
      (walkSpec (fun m => (h m).state) n L.reverse).sig.head? ∧
    (n ≠ 0 → (private_cond_signal h c n fuel).2.2.1 =
      L.reverse.find? (fun i => decide ((h i).state = .WAITING))) := by
  obtain ⟨hnd, hh, ht, hs⟩ := hR
  have hchain := represents_prevChain ⟨hnd, hh, ht, hs⟩
  have hndrev : L.reverse.Nodup := List.nodup_reverse.mpr hnd
  have hfuelrev : L.reverse.length ≤ fuel := by rw [List.length_reverse]; exact hfuel
  obtain ⟨bh, bn, bp, bfirst, bref⟩ :=
    signalWalk_spec L.reverse h n c.tail none 0 fuel hchain hndrev hfuelrev
  obtain ⟨hk, hsig, hlv, hstop, hnl, hor, hmin⟩ :=
    walkSpec_char (fun m => (h m).state) L.reverse n
  have hfirstval : (private_cond_signal h c n fuel).2.2.1 =
      (walkSpec (fun m => (h m).state) n L.reverse).sig.head? := by
    show (signalWalk h n c.tail none 0 fuel).first = _
    rw [bfirst]
    rfl
  refine ⟨hsig, hlv, by rw [← List.length_reverse]; exact hk, ?_, ?_, hmin, hfirstval, ?_⟩
  · intro j
    have hsplit := (signalSplit_state_notify ((signalWalk h n c.tail none 0 fuel).h) c
      ((signalWalk h n c.tail none 0 fuel).p) j).1
    show ((signalSplit ((signalWalk h n c.tail none 0 fuel).h) c
      ((signalWalk h n c.tail none 0 fuel).p)).1 j).state = _
    rw [hsplit, bh j]
  · rcases hor with hor | hor
    · rw [hnl] at hor
      exact Or.inl hor
    · rw [List.length_reverse] at hor
      exact Or.inr hor
  · intro hn0
    rw [hfirstval, hsig, List.filter_head?]
    rcases hor with hor | hor
    · -- the walk stopped because n nodes were signalled, so the prefix
      -- contains a waiting node and the first match lies inside it
      have hlen : ((walkSpec (fun m => (h m).state) n L.reverse).sig.length : Int) = n := by
        rw [hnl] at hor; omega
      have hsigne : (walkSpec (fun m => (h m).state) n L.reverse).sig ≠ [] := by
        intro hcon
        rw [hcon] at hlen
        simp at hlen
        exact hn0 hlen.symm
      obtain ⟨x, hx⟩ : ∃ x,
          ((L.reverse.take (walkSpec (fun m => (h m).state) n L.reverse).k).find?
            (fun i => decide ((h i).state = .WAITING))) = some x := by
        rw [← List.filter_head?, ← hsig]
        cases hcs : (walkSpec (fun m => (h m).state) n L.reverse).sig with
        | nil => exact absurd hcs hsigne
        | cons y ys => exact ⟨y, rfl⟩
      rw [hx]
      have hsplitlist := List.take_append_drop
        (walkSpec (fun m => (h m).state) n L.reverse).k L.reverse
      conv_rhs => rw [← hsplitlist]
      rw [List.find?_append, hx]
      rfl
    · rw [hor, List.take_length]

/-- C4: the waiter list stays structurally consistent: any state reachable by
insertions, timeout self-removals, and signal walk-and-splits represents its
attached list; `head` and `tail` are both empty exactly when no waiter is
attached; following `next` from `head` visits exactly the attached nodes and
terminates (no cycle); and the signal split leaves exactly the unvisited
head-side prefix attached while the detached part is exactly the walked
suffix from the old tail through the stopping point. -/
theorem attached_structurally_consistent {h : Heap} {c : CV} {L : List Nat}
    (hA : Attached h c L) :
    Represents h c L ∧
    ((c.head = none ∧ c.tail = none) ↔ L = []) ∧
    walkNext h c.head L.length = some L ∧
    (∀ (n : Int) (fuel : Nat), L.length ≤ fuel →
      Represents (private_cond_signal h c n fuel).1
        (private_cond_signal h c n fuel).2.1 (signalRemainder h n L) ∧
      signalRemainder h n L ++
        (L.reverse.take (walkSpec (fun m => (h m).state) n L.reverse).k).reverse = L) := by
  have hRep := attached_represents hA
  refine ⟨hRep, represents_nil_iff hRep, represents_walkNext hRep, ?_⟩
  intro n fuel hfuel
  refine ⟨signal_represents n fuel hRep hfuel, ?_⟩
  rw [List.take_reverse, List.reverse_reverse]
  exact List.take_append_drop _ _

/-- Witness for C2 on the two-node example: `signal(1)` walks `[1, 0]` from
the tail, finds node 1 already LEAVING, signals node 0, and remembers node 0
(the most senior waiting node) as the one to release. -/
theorem signal_walk_fifo_witness :
    Represents exHeap exCV [0, 1] ∧
      (private_cond_signal exHeap exCV 1 2).2.2.1 = some 0 := by
  have hR : Represents exHeap exCV [0, 1] :=
    ⟨by decide, rfl, rfl, ⟨rfl, rfl, rfl, rfl, trivial⟩⟩
  refine ⟨hR, ?_⟩
  have hthm := signal_walk_fifo exHeap exCV [0, 1] 1 2 hR (by decide)
  have hfind := hthm.2.2.2.2.2.2.2 (by decide)
  rw [hfind]
  decide

/-- Witness for C4: inserting node 5 into an empty condition variable yields a
state whose forward traversal visits exactly `[5]`. -/
theorem attached_structurally_consistent_witness :
    walkNext (insertNode (fun _ => initNode) ⟨none, none⟩ 5).1
      (insertNode (fun _ => initNode) ⟨none, none⟩ 5).2.head 1 = some [5] := by
  have hA : Attached (insertNode (fun _ => initNode) ⟨none, none⟩ 5).1
      (insertNode (fun _ => initNode) ⟨none, none⟩ 5).2 [5] :=
    Attached.insert 5 (Attached.empty _) (by simp)
  exact (attached_structurally_consistent hA).2.2.1

/-! ### The handshake invariant -/

theorem countP_set (p : WPhase → Bool) :
    ∀ (l : List WPhase) (idx : Nat) (a b : WPhase), l.get? idx = some a →
      ((l.set idx b).countP p : Int) =
        (l.countP p : Int) + (if p b then 1 else 0) - (if p a then 1 else 0) := by
  intro l
  induction l with
  | nil => intro idx a b hget; simp at hget
  | cons x xs ih =>
    intro idx a b hget
    cases idx with
    | zero =>
      have hxa : x = a := by simpa using hget
      subst hxa
      simp only [List.set, List.countP_cons]
      by_cases hpb : p b <;> by_cases hpx : p x <;> simp [hpb, hpx]
    | succ k =>
      have hget' : xs.get? k = some a := by simpa using hget
      have hih := ih k a b hget'
      simp only [List.set, List.countP_cons]
      by_cases hpx : p x <;> by_cases hpb : p b <;> by_cases hpa : p a <;>
        simp only [hpx, hpb, hpa, if_true, if_false] at hih ⊢ <;>
        push_cast at hih ⊢ <;> omega

theorem countP_replicate_linked (k : Nat) :
    ((List.replicate k WPhase.linked).countP
      (fun w => !decide (w = WPhase.done)) : Int) = (k : Int) := by
  induction k with
  | zero => rfl
  | succ k ih =>
    rw [List.replicate_succ, List.countP_cons]
    push_cast
    rw [ih]
    simp

theorem hstep_inv {s t : HSys} (hstep : HStep s t)
    (hinv : (s.ref = (s.ws.countP (fun w => !decide (w = WPhase.done)) : Int)) ∧
      (s.released = true → s.ref = 0)) :
    (t.ref = (t.ws.countP (fun w => !decide (w = WPhase.done)) : Int)) ∧
      (t.released = true → t.ref = 0) := by
  obtain ⟨hcount, hrel⟩ := hinv
  cases hstep with
  | unlink idx hget =>
    constructor
    · show s.ref = _
      rw [countP_set _ _ _ _ _ hget]
      simp
      exact hcount
    · intro hr
      exact hrel hr
  | dec idx hget =>
    have hmem : WPhase.unlinked ∈ s.ws := List.get?_mem hget
    constructor
    · show s.ref - 1 = _
      rw [countP_set _ _ _ _ _ hget]
      simp
      omega
    · intro hr
      have h0 : s.ref = 0 := hrel hr
      have hc0 : s.ws.countP (fun w => !decide (w = WPhase.done)) = 0 := by
        rw [h0] at hcount
        exact_mod_cast hcount.symm
      have hall := List.countP_eq_zero.mp hc0
      have := hall _ hmem
      simp at this
  | release h0 =>
    exact ⟨hcount, fun _ => h0⟩

theorem hreach_inv {s t : HSys} (hreach : HReach s t)
    (hinv : (s.ref = (s.ws.countP (fun w => !decide (w = WPhase.done)) : Int)) ∧
      (s.released = true → s.ref = 0)) :
    (t.ref = (t.ws.countP (fun w => !decide (w = WPhase.done)) : Int)) ∧
      (t.released = true → t.ref = 0) := by
  induction hreach with
  | refl => exact hinv
  | tail hab hbc ih => exact hstep_inv hbc ih

/-- C3: the signal walk increments `ref` once per visited node found already
out of `WAITING` and installs those nodes' `notify` pointers; and in the
handshake system the signaller's release step (exiting the drain loop, then
releasing `first->barrier` and returning) can only be reached after every
encountered LEAVING waiter has finished unlinking and decremented the shared
counter to zero. -/
theorem signal_drain_handshake (h : Heap) (c : CV) (L : List Nat) (n : Int) (fuel : Nat)
    (hR : Represents h c L) (hfuel : L.length ≤ fuel) :
    ((private_cond_signal h c n fuel).2.2.2 =
        (walkSpec (fun m => (h m).state) n L.reverse).lv.length ∧
      (∀ j ∈ (walkSpec (fun m => (h m).state) n L.reverse).lv,
        ((private_cond_signal h c n fuel).1 j).notify = true)) ∧
    (∀ (k : Nat) (s : HSys), HReach (initHSys k) s → s.released = true →
      ∀ w ∈ s.ws, w = WPhase.done) := by
  constructor
  · obtain ⟨hnd, hh, ht, hs⟩ := hR
    have hchain := represents_prevChain ⟨hnd, hh, ht, hs⟩
    have hndrev : L.reverse.Nodup := List.nodup_reverse.mpr hnd
    have hfuelrev : L.reverse.length ≤ fuel := by rw [List.length_reverse]; exact hfuel
    obtain ⟨bh, bn, bp, bfirst, bref⟩ :=
      signalWalk_spec L.reverse h n c.tail none 0 fuel hchain hndrev hfuelrev
    obtain ⟨hk, hsig, hlv, hstop, hnl, hor, hmin⟩ :=
      walkSpec_char (fun m => (h m).state) L.reverse n
    constructor
    · show (signalWalk h n c.tail none 0 fuel).ref = _
      rw [bref]
      exact Nat.zero_add _
    · intro j hj
      have hjsig : j ∉ (walkSpec (fun m => (h m).state) n L.reverse).sig := by
        intro hcon
        rw [hsig] at hcon
        rw [hlv] at hj
        have h1 := (List.mem_filter.mp hcon).2
        have h2 := (List.mem_filter.mp hj).2
        simp at h1 h2
        exact h2 h1
      have hsplit := (signalSplit_state_notify ((signalWalk h n c.tail none 0 fuel).h) c
        ((signalWalk h n c.tail none 0 fuel).p) j).2
      show ((signalSplit ((signalWalk h n c.tail none 0 fuel).h) c
        ((signalWalk h n c.tail none 0 fuel).p)).1 j).notify = true
      rw [hsplit, bh j]
      simp [updWalk, hjsig, hj]
  · intro k s hreach hrel w hw
    have hinv0 : ((initHSys k).ref =
        ((initHSys k).ws.countP (fun w => !decide (w = WPhase.done)) : Int)) ∧
        ((initHSys k).released = true → (initHSys k).ref = 0) := by
      constructor
      · show (k : Int) = _
        rw [show (initHSys k).ws = List.replicate k WPhase.linked from rfl]
        exact (countP_replicate_linked k).symm
      · intro hcon
        exact absurd hcon (by simp [initHSys])
    have hinv := hreach_inv hreach hinv0
    have h0 : s.ref = 0 := hinv.2 hrel
    have hc0 : s.ws.countP (fun w => !decide (w = WPhase.done)) = 0 := by
      have := hinv.1
      rw [h0] at this
      exact_mod_cast this.symm
    have hall := List.countP_eq_zero.mp hc0 w hw
    simpa using hall

/-- Witness for C3: on the two-node example `signal(1)` counts one LEAVING
waiter, and a concrete unlink/decrement/release interleaving of one such
waiter ends with every waiter done. -/
theorem signal_drain_handshake_witness :
    (private_cond_signal exHeap exCV 1 2).2.2.2 = 1 ∧
      (∀ w ∈ (HSys.mk [WPhase.done] 0 true).ws, w = WPhase.done) := by
  have hR : Represents exHeap exCV [0, 1] :=
    ⟨by decide, rfl, rfl, ⟨rfl, rfl, rfl, rfl, trivial⟩⟩
  have hthm := signal_drain_handshake exHeap exCV [0, 1] 1 2 hR (by decide)
  constructor
  · rw [hthm.1.1]
    decide
  · have htrace : HReach (initHSys 1) ⟨[WPhase.done], 0, true⟩ := by
      refine Relation.ReflTransGen.head (HStep.unlink (initHSys 1) 0 (by decide)) ?_
      refine Relation.ReflTransGen.head (HStep.dec _ 0 (by decide)) ?_
      refine Relation.ReflTransGen.head (HStep.release _ (by decide)) ?_
      exact Relation.ReflTransGen.refl
    exact hthm.2 1 ⟨[WPhase.done], 0, true⟩ htrace rfl

/-- C5: on the SIGNALED exit path the mutex's waiter counter changes only at
chain boundaries — one increment exactly when the node has no `next` (it is
the tail end of the detached chain, the first woken), one decrement exactly
when it has no `prev` (it ends the chain) — and when a `prev` node exists its
barrier is released by requeuing onto the mutex's lock word, never by a
wake. -/
theorem signaled_path_chain_boundaries (nd : Waiter) (mw : Int) :
    (signaledPath nd mw).1 =
      mw + (if nd.next = none then 1 else 0) - (if nd.prev = none then 1 else 0) ∧
    (signaledPath nd mw).2 =
      (match nd.prev with
       | some p => [WakeAction.requeue p]
       | none => []) ∧
    (∀ p, WakeAction.wake p ∉ (signaledPath nd mw).2) := by
  refine ⟨?_, ?_, ?_⟩ <;>
    cases hp : nd.prev <;> cases hn : nd.next <;> simp [signaledPath, hp, hn]

/-! ### Frame facts about the timeout exit path -/

theorem removeNode_heap_frame (h : Heap) (c : CV) (i j : Nat)
    (hjp : (h i).prev ≠ some j) (hjn : (h i).next ≠ some j) :
    (removeNode h c i).1 j = h j := by
  rcases hp : (h i).prev with _ | p
  · rcases hn : (h i).next with _ | nx
    · simp only [removeNode, hp, hn]
      split_ifs <;> rfl
    · have hjn' : j ≠ nx := fun he => hjn (by rw [hn, he])
      simp only [removeNode, hp, hn]
      split_ifs <;> simp [update, hjn']
  · rcases hn : (h i).next with _ | nx
    · have hjp' : j ≠ p := fun he => hjp (by rw [hp, he])
      simp only [removeNode, hp, hn]
      split_ifs <;> simp [update, hjp']
    · have hjp' : j ≠ p := fun he => hjp (by rw [hp, he])
      have hjn' : j ≠ nx := fun he => hjn (by rw [hn, he])
      simp only [removeNode, hp, hn]
      split_ifs <;> simp [update, hjp', hjn']

theorem represents_no_self_link {h : Heap} {c : CV} {L : List Nat} {i : Nat}
    (hR : Represents h c L) (hi : i ∈ L) :
    (h i).prev ≠ some i ∧ (h i).next ≠ some i := by
  obtain ⟨as, bs, rfl⟩ := List.append_of_mem hi
  obtain ⟨hnd, hh, ht, hs⟩ := hR
  rw [List.nodup_append] at hnd
  obtain ⟨hasnd, hcbsnd, hdisj⟩ := hnd
  have hias : i ∉ as := fun hmem => hdisj hmem (List.mem_cons_self _ _)
  obtain ⟨hibs, hbsnd⟩ := List.nodup_cons.mp hcbsnd
  rw [seg_append] at hs
  obtain ⟨hiprev, hinext, hseg_bs⟩ := hs.2
  constructor
  · rw [hiprev]
    cases as with
    | nil => simp [lastOr]
    | cons a as' =>
      rw [lastOr_of_ne_nil _ (by simp)]
      intro hcon
      have heq := List.getLast?_eq_getLast (a :: as') (by simp)
      rw [hcon] at heq
      have hg := List.getLast_mem (l := a :: as') (by simp)
      rw [← Option.some_inj.mp heq] at hg
      exact hias hg
  · rw [hinext]
    cases bs with
    | nil => simp [headOr]
    | cons b bs' =>
      show some b ≠ some i
      intro hcon
      have hbi : b = i := Option.some_inj.mp hcon
      exact hibs (hbi ▸ List.mem_cons_self b bs')

/-- C10: the timeout exit path leaves the mutex waiter counter unchanged and
releases or requeues no barrier; its state effects are exactly splicing the
caller's own node out of the list (only the node's two neighbours are
touched), plus decrementing the signaller's shared counter exactly when a
racing signaller had installed `notify`. -/
theorem timeout_path_frame (h : Heap) (c : CV) (L : List Nat) (i : Nat) (mw : Int)
    (hR : Represents h c L) (hi : i ∈ L) :
    (timeoutPath h c i mw).2.2.1 = mw ∧
    (timeoutPath h c i mw).2.2.2.1 = ([] : List WakeAction) ∧
    Represents (timeoutPath h c i mw).1 (timeoutPath h c i mw).2.1 (L.erase i) ∧
    (∀ j, (h i).prev ≠ some j → (h i).next ≠ some j →
      (timeoutPath h c i mw).1 j = h j) ∧
    (timeoutPath h c i mw).2.2.2.2 = (h i).notify := by
  refine ⟨rfl, rfl, remove_represents i hR hi, ?_, ?_⟩
  · intro j hjp hjn
    exact removeNode_heap_frame h c i j hjp hjn
  · have hnl := represents_no_self_link hR hi
    show ((removeNode h c i).1 i).notify = (h i).notify
    rw [removeNode_heap_frame h c i i hnl.1 hnl.2]

/-- Witness for C10 on the two-node example: node 1 times out; the mutex
waiter counter is untouched and no counter decrement is due (`notify` was
never installed). -/
theorem timeout_path_frame_witness :
    (timeoutPath exHeap exCV 1 7).2.2.1 = 7 ∧
      (timeoutPath exHeap exCV 1 7).2.2.2.2 = false := by
  have hR : Represents exHeap exCV [0, 1] :=
    ⟨by decide, rfl, rfl, ⟨rfl, rfl, rfl, rfl, trivial⟩⟩
  have hthm := timeout_path_frame exHeap exCV [0, 1] 1 7 hR (by decide)
  refine ⟨hthm.1, ?_⟩
  rw [hthm.2.2.2.2]
  decide

/-- C6: when the node was already SIGNALED (a wakeup was consumed), a
cancellation recorded during the blocking step is suppressed: with the mutex
reacquired successfully the call returns 0, and on this path the call never
returns the cancellation code at all, whatever the blocking step recorded. -/
theorem consumed_wakeup_suppresses_cancellation (oldstate : WState) (e0 : Int)
    (hsig : oldstate ≠ WState.WAITING) :
    twOutcome oldstate ECANCELED 0 = 0 ∧
    (∀ lockErr : Int, twOutcome oldstate e0 lockErr ≠ ECANCELED) := by
  constructor
  · simp [twOutcome, hsig]
  · intro lockErr
    simp only [twOutcome]
    rw [if_neg hsig]
    by_cases he : (if lockErr ≠ 0 then lockErr else e0) = ECANCELED
    · rw [if_pos he]
      decide
    · rw [if_neg he]
      exact he

/-- Witness for C6: a signalled waiter with a pending cancellation returns 0,
and even with a failing mutex reacquire the result is never the cancellation
code. -/
theorem consumed_wakeup_suppresses_cancellation_witness :
    twOutcome WState.SIGNALED ECANCELED 0 = 0 ∧
      twOutcome WState.SIGNALED ECANCELED EINVAL ≠ ECANCELED :=
  ⟨(consumed_wakeup_suppresses_cancellation .SIGNALED ECANCELED (by decide)).1,
   (consumed_wakeup_suppresses_cancellation .SIGNALED ECANCELED (by decide)).2 EINVAL⟩

/-- C7: a failure of `pthread_mutex_lock` on the way out overrides whatever
outcome was previously recorded (timeout or pending cancellation), on both
exit paths.  `pthread_mutex_lock` is external to this file; its error codes
(EINVAL, EDEADLK, EPERM, ...) never equal ECANCELED, which the hypothesis
records — within the model, a hypothetical ECANCELED-valued mutex error on
the signalled path would be remapped to success by the consumed-wakeup
suppression. -/
theorem mutex_lock_error_overrides (oldstate : WState) (e0 lockErr : Int)
    (hne : lockErr ≠ 0) (hnc : lockErr ≠ ECANCELED) :
    twOutcome oldstate e0 lockErr = lockErr := by
  simp only [twOutcome]
  rw [if_pos hne]
  by_cases hw : oldstate = WState.WAITING
  · rw [if_pos hw]
  · rw [if_neg hw, if_neg hnc]

/-- Witness for C7: a mutex error (EINVAL) overrides a pending cancellation on
the signalled path and a timeout on the timed-out path. -/
theorem mutex_lock_error_overrides_witness :
    twOutcome WState.SIGNALED ECANCELED EINVAL = EINVAL ∧
      twOutcome WState.WAITING ETIMEDOUT EINVAL = EINVAL :=
  ⟨mutex_lock_error_overrides .SIGNALED ECANCELED EINVAL (by decide) (by decide),
   mutex_lock_error_overrides .WAITING ETIMEDOUT EINVAL (by decide) (by decide)⟩

/-- C8 counterexample: for a normal-type mutex (`_m_type & 15 == 0`) the
ownership check is skipped entirely — a caller that does not hold the mutex
(owner tid 1, caller tid 2) is not rejected with EPERM; the call proceeds. -/
theorem nonowner_normal_mutex_not_eperm :
    twEntry ⟨0, 1⟩ 2 none ≠ EntryResult.earlyErr EPERM ∧
      twEntry ⟨0, 1⟩ 2 none = EntryResult.proceed := by
  decide

/-- C8 amended: for every call in which the mutex is of a checked type
(`_m_type & 15 ≠ 0`) and the calling thread does not hold it, the call fails
immediately with EPERM, with the condition variable and the waiter heap left
untouched. -/
theorem nonowner_checked_mutex_eperm (m : MutexView) (tid : Nat) (ts : Option Int)
    (h : Heap) (c : CV) (i : Nat) (htype : m.m_type % 16 ≠ 0)
    (howner : m.m_lock_owner ≠ tid) :
    twCall m tid ts h c i = (some EPERM, h, c) := by
  unfold twCall twEntry
  rw [if_pos ⟨htype, howner⟩]

/-- Witness for the amended C8: an error-checking mutex owned by tid 5,
called from tid 2, is rejected with EPERM before any mutation. -/
theorem nonowner_checked_mutex_eperm_witness :
    twCall ⟨1, 5⟩ 2 none (fun _ => initNode) ⟨none, none⟩ 0 =
      (some EPERM, (fun _ => initNode : Heap), (⟨none, none⟩ : CV)) :=
  nonowner_checked_mutex_eperm ⟨1, 5⟩ 2 none (fun _ => initNode) ⟨none, none⟩ 0
    (by decide) (by decide)

/-- C9: a supplied deadline whose nanosecond field is out of range (negative
values are caught too, because the source compares against `1000000000UL`
after unsigned conversion) makes the call fail immediately with EINVAL and no
state mutated, for every call that passes the preceding ownership check
(the source, like the spec's step 1, runs the ownership validation first). -/
theorem bad_nanoseconds_einval (m : MutexView) (tid : Nat) (nsec : Int)
    (h : Heap) (c : CV) (i : Nat)
    (hown : m.m_type % 16 = 0 ∨ m.m_lock_owner = tid)
    (hrange : nsec < 0 ∨ 1000000000 ≤ nsec) :
    twCall m tid (some nsec) h c i = (some EINVAL, h, c) := by
  have hneg : ¬(m.m_type % 16 ≠ 0 ∧ m.m_lock_owner ≠ tid) := by
    rcases hown with h1 | h1
    · intro hc; exact hc.1 h1
    · intro hc; exact hc.2 h1
  have hentry : twEntry m tid (some nsec) = .earlyErr EINVAL := by
    unfold twEntry
    rw [if_neg hneg]
    exact if_pos hrange
  unfold twCall
  rw [hentry]

/-- Witness for C9: a two-second nanosecond field is rejected with EINVAL and
the state is returned untouched. -/
theorem bad_nanoseconds_einval_witness :
    twCall ⟨0, 1⟩ 2 (some 2000000000) (fun _ => initNode) ⟨none, none⟩ 0 =
      (some EINVAL, (fun _ => initNode : Heap), (⟨none, none⟩ : CV)) :=
  bad_nanoseconds_einval ⟨0, 1⟩ 2 2000000000 (fun _ => initNode) ⟨none, none⟩ 0
    (Or.inl (by decide)) (Or.inr (by decide))

/-- C1: in either order of the timing-out waiter's CAS and the signaller's CAS
on a node starting in `WAITING`, exactly one of the two outcomes {timeout,
signal-consumed} occurs, and the node's final state records the winner. -/
theorem race_exactly_one (ord : RaceOrder) :
    (timeoutOutcome ord ↔ ¬ signalConsumedOutcome ord) ∧
    (raceRun ord).1 = (if timeoutOutcome ord then .LEAVING else .SIGNALED) := by
  cases ord <;> simp [timeoutOutcome, signalConsumedOutcome, raceRun, a_cas]

end CondVar
